import Mathlib

/-!
Shallow embedding of the message-framed WebSocket-to-child-process proxy of
the github-copilot-office repository: the stream-deframing state machine of
src/src/taskpane/App.tsx (the child.stdout data handler, iteration-capped,
raw-forwarding), the parseMessages decoder of
src/copilot-sdk-nodejs/websocket-transport.ts (JSON-emitting, uncapped), and
the lifecycle / broker wiring of src/src/copilotProxy.js and App.tsx.

Byte buffers and JavaScript strings are both modelled as `List Char`: every
character the claims exercise is a single code unit in both representations,
so `Buffer.indexOf` / `String.indexOf`, `slice` and length arithmetic agree
with `List` operations position for position.  External platform functions
(`JSON.parse`, the WHATWG `URL` constructor) are parameters of the embedding;
`none` models the exception the platform call throws.
-/

namespace CopilotOffice

/-- Four-unit frame-header delimiter, CR LF CR LF. -/
def delimChars : List Char := ['\r', '\n', '\r', '\n']

/-- Model of `buffer.indexOf('\r\n\r\n')` (App.tsx, websocket-transport.ts):
position of the first occurrence of the full four-unit delimiter, `none` when
there is none (the source compares the JS result against -1). -/
def findDelim : List Char → Option Nat
  | [] => none
  | c :: rest =>
    if (c :: rest).take 4 = delimChars then some 0
    else (findDelim rest).map (· + 1)

/-- Decimal-digit test: the regex class `\d`. -/
def isDigitChar (c : Char) : Bool := decide (48 ≤ c.toNat ∧ c.toNat ≤ 57)

/-- Code points matched by the JavaScript regex class `\s`. -/
def jsWhitespaceVals : List Nat :=
  [9, 10, 11, 12, 13, 32, 160, 5760, 8192, 8193, 8194, 8195, 8196, 8197,
   8198, 8199, 8200, 8201, 8202, 8232, 8233, 8239, 8287, 12288, 65279]

/-- Whitespace test: the regex class `\s`. -/
def isJsWhitespace (c : Char) : Bool := decide (c.toNat ∈ jsWhitespaceVals)

/-- Accumulation step for the decimal value of a digit capture. -/
def digitStep (n : Nat) (c : Char) : Nat := n * 10 + (c.toNat - 48)

/-- Value of an all-digit capture: `parseInt(match[1], 10)`.  (Exact for the
capture sizes that occur here; JS number precision is not modelled.) -/
def digitsToNat (ds : List Char) : Nat := ds.foldl digitStep 0

/-- Lower-cased literal that the case-insensitive regex
`Content-Length:` portion searches for. -/
def clLit : List Char :=
  ['c', 'o', 'n', 't', 'e', 'n', 't', '-', 'l', 'e', 'n', 'g', 't', 'h', ':']

/-- After the literal has matched: `\s*`, then the capture `(\d+)`, which must
be non-empty; returns the parsed length.  (Backtracking into `\s*` cannot help,
since no whitespace character is a digit, so greedy skipping is exact.) -/
def clDigitsAfter (rest : List Char) : Option Nat :=
  let ds := (rest.dropWhile isJsWhitespace).takeWhile isDigitChar
  if ds = [] then none else some (digitsToNat ds)

/-- Model of `header.match(/Content-Length:\s*(\d+)/i)` followed by
`parseInt(match[1], 10)`: scan left to right for the first position at which
the case-insensitive 15-character literal matches and, after optional
whitespace, at least one digit follows; on failure at a position the regex
engine resumes the scan one character later. -/
def matchContentLength : List Char → Option Nat
  | [] => none
  | c :: cs =>
    if ((c :: cs).take 15).map Char.toLower = clLit then
      match clDigitsAfter ((c :: cs).drop 15) with
      | some n => some n
      | none => matchContentLength cs
    else matchContentLength cs

/-- The `while (iterations++ < 100)` extraction loop of the
`child.stdout.on('data', ...)` handler in App.tsx, with the iteration budget
as explicit fuel (the source allows at most 100 body executions per data
event, counting malformed-header skips).  Returns the list of arguments passed
to `ws.send` — each a raw frame span: header, delimiter and payload — together
with the final accumulation buffer.  `wsOpen` is the
`ws.readyState === ws.OPEN` guard, constant during one synchronous event.
The source's logging block (a `try`-guarded `JSON.parse` used only for
`console.log`) reads `message` but changes neither the buffer nor what is
sent, so it has no counterpart here. -/
def processStdout (wsOpen : Bool) : Nat → List Char → List (List Char) × List Char
  | 0, buf => ([], buf)
  | fuel + 1, buf =>
    match findDelim buf with
    | none => ([], buf)
    | some headerEnd =>
      match matchContentLength (buf.take headerEnd) with
      | none => processStdout wsOpen fuel (buf.drop (headerEnd + 4))
      | some contentLength =>
        if buf.length < headerEnd + 4 + contentLength then ([], buf)
        else
          let message := buf.take (headerEnd + 4 + contentLength)
          let r := processStdout wsOpen fuel (buf.drop (headerEnd + 4 + contentLength))
          (if wsOpen then message :: r.1 else r.1, r.2)

/-- The whole App.tsx data-event handler: append the incoming chunk to the
accumulation buffer, then run the capped extraction loop. -/
def onChildStdoutData (wsOpen : Bool) (buffer data : List Char) :
    List (List Char) × List Char :=
  processStdout wsOpen 100 (buffer ++ data)

/-- Fueled body of `parseMessages` (websocket-transport.ts).  The source's
`while (pos < buffer.length)` loop advances `pos` by at least four units per
completed iteration, so with `buffer.length` units of fuel (see
`parseMessages`) the fuel can never run out before one of the source's
`break`s fires; the fueled recursion is extensionally the source loop, acting
on the still-unconsumed suffix `buffer.slice(pos)`.  `parseJson` stands for
the external `JSON.parse`; `none` means it threw, and the frame is then
skipped by the source's `try ... catch`. -/
def parseMessagesGo {J : Type} (parseJson : List Char → Option J) :
    Nat → List Char → List J × List Char
  | 0, buffer => ([], buffer)
  | fuel + 1, buffer =>
    match findDelim buffer with
    | none => ([], buffer)
    | some headerEnd =>
      match matchContentLength (buffer.take headerEnd) with
      | none => ([], buffer)
      | some contentLength =>
        if buffer.length < headerEnd + 4 + contentLength then ([], buffer)
        else
          let content := (buffer.drop (headerEnd + 4)).take contentLength
          let r := parseMessagesGo parseJson fuel
            (buffer.drop (headerEnd + 4 + contentLength))
          (match parseJson content with
           | some m => m :: r.1
           | none => r.1, r.2)

/-- `parseMessages(buffer)` of websocket-transport.ts: the decoded messages in
order, and the unconsumed remainder `buffer.slice(pos)`. -/
def parseMessages {J : Type} (parseJson : List Char → Option J)
    (buffer : List Char) : List J × List Char :=
  parseMessagesGo parseJson buffer.length buffer

/-- The `WebSocketMessageReader` message listener of websocket-transport.ts,
folded over a sequence of incoming socket messages: append each chunk to the
retained buffer, run `parseMessages`, keep the remainder as the new buffer,
and deliver the decoded messages in order. -/
def feedChunks {J : Type} (parseJson : List Char → Option J)
    (st : List J × List Char) : List (List Char) → List J × List Char
  | [] => st
  | c :: cs =>
    let r := parseMessages parseJson (st.2 ++ c)
    feedChunks parseJson (st.1 ++ r.1, r.2) cs

/-- Decimal digit character for a digit value. -/
def digitChar : Nat → Char
  | 0 => '0' | 1 => '1' | 2 => '2' | 3 => '3' | 4 => '4'
  | 5 => '5' | 6 => '6' | 7 => '7' | 8 => '8' | _ => '9'

/-- Fueled most-significant-first decimal digit writer. -/
def natDigitsGo : Nat → Nat → List Char → List Char
  | 0, _, acc => acc
  | fuel + 1, n, acc =>
    if n < 10 then digitChar n :: acc
    else natDigitsGo fuel (n / 10) (digitChar (n % 10) :: acc)

/-- Decimal representation of `n`, as JavaScript template interpolation writes
a (small, non-negative) number. -/
def natDigits (n : Nat) : List Char := natDigitsGo (n + 1) n []

/-- Header literal `Content-Length: ` with the single space the frame writer
emits (`WebSocketMessageWriter.write`). -/
def clHeaderChars : List Char :=
  ['C', 'o', 'n', 't', 'e', 'n', 't', '-', 'L', 'e', 'n', 'g', 't', 'h', ':', ' ']

/-- One valid wire frame for payload `p`: `Content-Length: N`, CR LF CR LF,
then exactly `N = p.length` payload units — the frame shape of the claims and
of `WebSocketMessageWriter.write`. -/
def encodeFrame (p : List Char) : List Char :=
  clHeaderChars ++ natDigits p.length ++ delimChars ++ p

/-- Length of the header part of `encodeFrame p` (everything before the
delimiter). -/
def hdrLen (p : List Char) : Nat := (clHeaderChars ++ natDigits p.length).length

/-- Concatenation of a sequence of frames into one stream. -/
def encodeStream : List (List Char) → List Char
  | [] => []
  | p :: ps => encodeFrame p ++ encodeStream ps

/-- Concatenation of a chunk sequence. -/
def chunksConcat : List (List Char) → List Char
  | [] => []
  | c :: cs => c ++ chunksConcat cs

/-- Close action performed on the browser-facing socket. -/
structure CloseAction where
  code : Nat
  reason : List Char
deriving DecidableEq

/-- The `child.on('exit', ...)` handler of App.tsx / copilotProxy.js: close the
socket with the normal-closure code, whatever the exit code was (`none`
models a null code after signal termination). -/
def onChildExit (_exitCode : Option Int) : CloseAction :=
  ⟨1000, "Child process exited".toList⟩

/-- The `child.on('error', ...)` handler of App.tsx / copilotProxy.js, which
also fires when spawning fails: close the socket with an internal-error
code. -/
def onChildError : CloseAction :=
  ⟨1011, "Child process error".toList⟩

/-- Per-connection child-process view: the Node `child.killed` flag (set once
`child.kill()` has been called) and a count of termination signals actually
dispatched. -/
structure ProxyChild where
  killed : Bool
  killCount : Nat
deriving DecidableEq

/-- `child.kill()`: dispatch the termination signal and set `killed`. -/
def killChild (c : ProxyChild) : ProxyChild := ⟨true, c.killCount + 1⟩

/-- Socket end-of-life events relayed to the child. -/
inductive WsEndEvent
  | close
  | error

/-- The `ws.on('close', ...)` and `ws.on('error', ...)` handlers of App.tsx /
copilotProxy.js, which share one body: `if (!child.killed) child.kill()`. -/
def onWsEnd : WsEndEvent → ProxyChild → ProxyChild
  | _, c => if c.killed then c else killChild c

/-- Result of a successful `new URL(request.url, base)` call, restricted to
the one field the broker reads. -/
structure ParsedUrl where
  pathname : List Char

/-- Outcome of one HTTP `upgrade` event as seen from the broker. -/
inductive UpgradeOutcome
  | handshake
  | ignored
  | exceptionEscapes
deriving DecidableEq

/-- The reserved upgrade route. -/
def copilotRoute : List Char := "/api/copilot".toList

/-- The `upgrade` handler of App.tsx / copilotProxy.js:
`new URL(request.url, "https://" + request.headers.host)` with no
`try`/`catch`, then complete the WebSocket handshake exactly when the parsed
pathname equals the reserved route, and do nothing at all otherwise.  `newURL`
stands for the external WHATWG URL constructor; `none` models the `TypeError`
it throws on invalid input, which nothing in the handler catches, so the
exception escapes the event boundary. -/
def upgradeHandler (newURL : List Char → List Char → Option ParsedUrl)
    (url host : List Char) : UpgradeOutcome :=
  match newURL url ("https://".toList ++ host) with
  | none => .exceptionEscapes
  | some u => if u.pathname = copilotRoute then .handshake else .ignored

/-- Model of the WHATWG URL-constructor fragment the broker exercises: for an
origin-form request target the parsed pathname is the target up to a query or
fragment, and the constructor throws a `TypeError` when the base authority
contains a forbidden host code point such as a space
(url.spec.whatwg.org, "forbidden host code point"). -/
def newURLModel (url base : List Char) : Option ParsedUrl :=
  if ' ' ∈ base then none
  else some ⟨url.takeWhile (fun c => !(c == '?' || c == '#'))⟩

/-- The simplified stdout relay of copilotProxy.js: each raw stdout chunk is
sent verbatim when the socket is open and dropped otherwise. -/
def rawStdoutForward (wsOpen : Bool) (data : List Char) : List (List Char) :=
  if wsOpen then [data] else []

/-- `Starts t l`: `t` is an initial segment of `l`. -/
def Starts (t l : List Char) : Prop := ∃ r, t ++ r = l

/-- `FrameCut rem qs`: the unconsumed tail `rem` is a strict initial segment
of the next frame still expected from the payload sequence `qs` (or every
frame has been consumed and nothing remains). -/
def FrameCut (rem : List Char) (qs : List (List Char)) : Prop :=
  (qs = [] ∧ rem = []) ∨
    ∃ q qs2, qs = q :: qs2 ∧ Starts rem (encodeFrame q) ∧
      rem.length < (encodeFrame q).length

/-! ### List utilities -/

theorem take_append_le {a b : List Char} {n : Nat} (h : n ≤ a.length) :
    (a ++ b).take n = a.take n := by
  rw [List.take_append_eq_append_take, Nat.sub_eq_zero_of_le h, List.take_zero,
    List.append_nil]

theorem take_append_len {a b : List Char} {n : Nat} (h : n = a.length) :
    (a ++ b).take n = a := by
  subst h; rw [take_append_le le_rfl, List.take_length]

theorem drop_append_len {a b : List Char} {n : Nat} (h : n = a.length) :
    (a ++ b).drop n = b := by
  subst h
  rw [List.drop_append_eq_append_drop, List.drop_length, Nat.sub_self,
    List.drop_zero, List.nil_append]

/-! ### `Starts` (initial segments) -/

theorem starts_nil (l : List Char) : Starts [] l := ⟨l, rfl⟩

theorem starts_take {t l : List Char} (h : Starts t l) : t = l.take t.length := by
  obtain ⟨r, rfl⟩ := h
  rw [take_append_len rfl]

theorem starts_length_le {t l : List Char} (h : Starts t l) :
    t.length ≤ l.length := by
  obtain ⟨r, rfl⟩ := h
  simp

theorem starts_mem {t l : List Char} {x : Char} (h : Starts t l) (hx : x ∈ t) :
    x ∈ l := by
  obtain ⟨r, rfl⟩ := h
  exact List.mem_append_left r hx

theorem starts_of_le {t a b : List Char} (h : Starts t (a ++ b))
    (hl : t.length ≤ a.length) : Starts t a := by
  have ht := starts_take h
  rw [take_append_le hl] at ht
  refine ⟨a.drop t.length, ?_⟩
  rw [ht, List.length_take, Nat.min_eq_left hl]
  exact List.take_append_drop _ _

theorem starts_split {t a b : List Char} (h : Starts t (a ++ b))
    (hl : a.length ≤ t.length) : ∃ t2, t = a ++ t2 ∧ Starts t2 b := by
  have ht := starts_take h
  rw [List.take_append_eq_append_take, List.take_of_length_le hl] at ht
  exact ⟨b.take (t.length - a.length), ht,
    ⟨b.drop (t.length - a.length), List.take_append_drop _ _⟩⟩

/-! ### `findDelim` facts -/

theorem take4_cons_ne_delim {c : Char} {l : List Char} (hc : c ≠ '\r') :
    (c :: l).take 4 ≠ delimChars := by
  intro h
  rw [show ((4 : Nat) = 3 + 1) from rfl, List.take_succ_cons] at h
  exact hc (List.cons_eq_cons.mp h).1

theorem findDelim_bound {l : List Char} {i : Nat} (h : findDelim l = some i) :
    i + 4 ≤ l.length := by
  induction l generalizing i with
  | nil => simp [findDelim] at h
  | cons c rest ih =>
    rw [findDelim] at h
    split at h
    · next h4 =>
      have : ((c :: rest).take 4).length = delimChars.length := by rw [h4]
      simp only [List.length_take, delimChars, List.length_cons,
        List.length_nil] at this
      have hi : i = 0 := by simpa using h.symm
      subst hi
      simp only [List.length_cons]
      omega
    · obtain ⟨j, hj, rfl⟩ := Option.map_eq_some'.mp h
      have := ih hj
      simp only [List.length_cons]
      omega

theorem findDelim_none_of_no_cr {l : List Char} (h : ∀ c ∈ l, c ≠ '\r') :
    findDelim l = none := by
  induction l with
  | nil => rfl
  | cons c rest ih =>
    rw [findDelim, if_neg (take4_cons_ne_delim (h c (by simp))),
      ih (fun x hx => h x (by simp [hx])), Option.map_none']

theorem findDelim_append_of_some {a b : List Char} {i : Nat}
    (h : findDelim a = some i) : findDelim (a ++ b) = some i := by
  induction a generalizing i with
  | nil => simp [findDelim] at h
  | cons c rest ih =>
    have hlen := findDelim_bound h
    simp only [List.length_cons] at hlen
    rw [findDelim] at h
    rw [List.cons_append, findDelim]
    split at h
    · next h4 =>
      have hi : i = 0 := by simpa using h.symm
      subst hi
      rw [if_pos]
      have : (c :: rest).take 4 = (c :: (rest ++ b)).take 4 := by
        rw [show (c :: (rest ++ b)) = (c :: rest) ++ b from rfl,
          take_append_le (by simp; omega)]
      rw [← this]
      assumption
    · next h4 =>
      obtain ⟨j, hj, rfl⟩ := Option.map_eq_some'.mp h
      have hjb := findDelim_bound hj
      rw [if_neg, ih hj, Option.map_some']
      intro hcon
      apply h4
      rw [show (c :: (rest ++ b)) = (c :: rest) ++ b from rfl,
        take_append_le (by simp; omega)] at hcon
      exact hcon

theorem findDelim_delim_head (r : List Char) :
    findDelim (delimChars ++ r) = some 0 := by
  rw [show delimChars ++ r = '\r' :: ('\n' :: '\r' :: '\n' :: r) from rfl,
    findDelim,
    show '\r' :: ('\n' :: '\r' :: '\n' :: r) = delimChars ++ r from rfl,
    if_pos (take_append_len (by rfl))]

theorem findDelim_boundary {a r : List Char} (h : ∀ c ∈ a, c ≠ '\r') :
    findDelim (a ++ delimChars ++ r) = some a.length := by
  induction a with
  | nil =>
    rw [List.nil_append, findDelim_delim_head]
    rfl
  | cons c a' ih =>
    rw [List.cons_append, List.cons_append, findDelim,
      if_neg (take4_cons_ne_delim (h c (by simp))),
      ih (fun x hx => h x (by simp [hx])), Option.map_some', List.length_cons]

theorem findDelim_cut_none {a t2 : List Char} (h : ∀ c ∈ a, c ≠ '\r')
    (hst : Starts t2 delimChars) (hlt : t2.length < 4) :
    findDelim (a ++ t2) = none := by
  induction a with
  | nil =>
    rw [List.nil_append]
    obtain ⟨rr, hr⟩ := hst
    rcases t2 with _ | ⟨c1, t2⟩
    · rfl
    rcases t2 with _ | ⟨c2, t2⟩
    · simp only [List.cons_append, List.nil_append, delimChars,
        List.cons.injEq] at hr
      obtain ⟨rfl, -⟩ := hr
      decide
    rcases t2 with _ | ⟨c3, t2⟩
    · simp only [List.cons_append, List.nil_append, delimChars,
        List.cons.injEq] at hr
      obtain ⟨rfl, rfl, -⟩ := hr
      decide
    rcases t2 with _ | ⟨c4, t2⟩
    · simp only [List.cons_append, List.nil_append, delimChars,
        List.cons.injEq] at hr
      obtain ⟨rfl, rfl, rfl, -⟩ := hr
      decide
    · simp only [List.length_cons] at hlt
      omega
  | cons c a' ih =>
    rw [List.cons_append, findDelim,
      if_neg (take4_cons_ne_delim (h c (by simp))),
      ih (fun x hx => h x (by simp [hx])), Option.map_none']

/-! ### Decimal digits: `natDigits` / `digitsToNat` facts -/

theorem digitChar_isDigit (d : Nat) : isDigitChar (digitChar d) = true := by
  rcases d with _ | _ | _ | _ | _ | _ | _ | _ | _ | d <;> rfl

theorem digitChar_toNat {d : Nat} (h : d < 10) : (digitChar d).toNat = 48 + d := by
  rcases d with _ | _ | _ | _ | _ | _ | _ | _ | _ | d
  · rfl
  · rfl
  · rfl
  · rfl
  · rfl
  · rfl
  · rfl
  · rfl
  · rfl
  · have hd : d = 0 := by omega
    subst hd
    rfl

theorem isDigit_ne_cr {c : Char} (h : isDigitChar c = true) : c ≠ '\r' := by
  intro hc
  subst hc
  simp [isDigitChar] at h

theorem isDigit_not_ws {c : Char} (h : isDigitChar c = true) :
    isJsWhitespace c = false := by
  simp only [isDigitChar, decide_eq_true_eq] at h
  simp only [isJsWhitespace, jsWhitespaceVals, List.mem_cons, List.not_mem_nil,
    or_false, decide_eq_false_iff_not]
  omega

theorem foldl_digitStep (ds : List Char) (v : Nat) :
    ds.foldl digitStep v = v * 10 ^ ds.length + digitsToNat ds := by
  induction ds generalizing v with
  | nil => simp [digitsToNat]
  | cons c ds ih =>
    rw [List.foldl_cons, ih]
    have h0 : digitsToNat (c :: ds) = (digitStep 0 c) * 10 ^ ds.length
        + digitsToNat ds := by
      rw [digitsToNat, List.foldl_cons, ih]
    rw [h0]
    simp only [digitStep, List.length_cons, pow_succ]
    ring

theorem natDigitsGo_shape (fuel n : Nat) (acc : List Char) :
    ∃ ds, natDigitsGo fuel n acc = ds ++ acc := by
  induction fuel generalizing n acc with
  | zero => exact ⟨[], rfl⟩
  | succ fuel ih =>
    rw [natDigitsGo]
    split
    · exact ⟨[digitChar n], rfl⟩
    · obtain ⟨ds, hds⟩ := ih (n / 10) (digitChar (n % 10) :: acc)
      exact ⟨ds ++ [digitChar (n % 10)], by rw [hds, List.append_assoc]; rfl⟩

theorem natDigitsGo_all_digit (fuel n : Nat) (acc : List Char)
    (hacc : ∀ c ∈ acc, isDigitChar c = true) :
    ∀ c ∈ natDigitsGo fuel n acc, isDigitChar c = true := by
  induction fuel generalizing n acc with
  | zero => exact hacc
  | succ fuel ih =>
    rw [natDigitsGo]
    split
    · intro c hc
      rcases List.mem_cons.mp hc with rfl | hc
      · exact digitChar_isDigit n
      · exact hacc c hc
    · refine ih (n / 10) _ ?_
      intro c hc
      rcases List.mem_cons.mp hc with rfl | hc
      · exact digitChar_isDigit (n % 10)
      · exact hacc c hc

theorem natDigitsGo_value (fuel : Nat) :
    ∀ n acc, n < 10 ^ fuel →
      digitsToNat (natDigitsGo fuel n acc)
        = n * 10 ^ acc.length + digitsToNat acc := by
  induction fuel with
  | zero =>
    intro n acc hn
    simp only [pow_zero, Nat.lt_one_iff] at hn
    subst hn
    simp [natDigitsGo]
  | succ fuel ih =>
    intro n acc hn
    rw [natDigitsGo]
    split
    · next h10 =>
      rw [digitsToNat, List.foldl_cons, foldl_digitStep]
      have : digitStep 0 (digitChar n) = n := by
        rw [digitStep, digitChar_toNat h10]
        omega
      rw [this]
    · next h10 =>
      have hdiv : n / 10 < 10 ^ fuel := by
        rw [Nat.div_lt_iff_lt_mul (by norm_num)]
        calc n < 10 ^ (fuel + 1) := hn
        _ = 10 ^ fuel * 10 := by rw [pow_succ]
      rw [ih (n / 10) (digitChar (n % 10) :: acc) hdiv]
      have hmod : digitsToNat (digitChar (n % 10) :: acc)
          = (n % 10) * 10 ^ acc.length + digitsToNat acc := by
        rw [digitsToNat, List.foldl_cons, foldl_digitStep]
        have : digitStep 0 (digitChar (n % 10)) = n % 10 := by
          rw [digitStep, digitChar_toNat (Nat.mod_lt n (by norm_num))]
          omega
        rw [this]
      rw [hmod, List.length_cons, pow_succ]
      have hnm : n / 10 * 10 + n % 10 = n := by omega
      calc n / 10 * (10 ^ acc.length * 10) + (n % 10 * 10 ^ acc.length
            + digitsToNat acc)
          = (n / 10 * 10 + n % 10) * 10 ^ acc.length + digitsToNat acc := by
            ring
        _ = n * 10 ^ acc.length + digitsToNat acc := by rw [hnm]

theorem digitsToNat_natDigits (n : Nat) : digitsToNat (natDigits n) = n := by
  have hlt : n < 10 ^ (n + 1) := by
    calc n < 10 ^ n := Nat.lt_pow_self (by norm_num) n
      _ ≤ 10 ^ (n + 1) := Nat.pow_le_pow_right (by norm_num) (by omega)
  rw [natDigits, natDigitsGo_value (n + 1) n [] hlt]
  simp [digitsToNat]

theorem natDigits_all_digit (n : Nat) :
    ∀ c ∈ natDigits n, isDigitChar c = true :=
  natDigitsGo_all_digit (n + 1) n [] (by simp)

theorem natDigits_ne_nil (n : Nat) : natDigits n ≠ [] := by
  rw [natDigits, natDigitsGo]
  split
  · simp
  · obtain ⟨ds, hds⟩ := natDigitsGo_shape n (n / 10) [digitChar (n % 10)]
    rw [hds]
    simp

theorem natDigits_no_cr (n : Nat) : ∀ c ∈ natDigits n, c ≠ '\r' :=
  fun c hc => isDigit_ne_cr (natDigits_all_digit n c hc)

/-! ### `matchContentLength` facts -/

theorem matchCL_cons (c : Char) (cs : List Char) :
    matchContentLength (c :: cs)
      = if ((c :: cs).take 15).map Char.toLower = clLit then
          match clDigitsAfter ((c :: cs).drop 15) with
          | some n => some n
          | none => matchContentLength cs
        else matchContentLength cs := by
  rw [matchContentLength]

theorem takeWhile_all_digit {ds : List Char}
    (h : ∀ c ∈ ds, isDigitChar c = true) : ds.takeWhile isDigitChar = ds := by
  induction ds with
  | nil => rfl
  | cons c ds ih =>
    rw [List.takeWhile_cons, if_pos (h c (by simp)),
      ih (fun x hx => h x (by simp [hx]))]

theorem clDigitsAfter_space {ds : List Char} (hne : ds ≠ [])
    (hdig : ∀ c ∈ ds, isDigitChar c = true) :
    clDigitsAfter (' ' :: ds) = some (digitsToNat ds) := by
  rw [clDigitsAfter]
  have h1 : (' ' :: ds).dropWhile isJsWhitespace = ds.dropWhile isJsWhitespace := by
    rw [List.dropWhile_cons]
    simp only [if_pos (by decide : isJsWhitespace ' ' = true)]
  have h2 : ds.dropWhile isJsWhitespace = ds := by
    rcases ds with _ | ⟨d, ds⟩
    · rfl
    · rw [List.dropWhile_cons, if_neg]
      rw [isDigit_not_ws (hdig d (by simp))]
      simp
  simp only [h1, h2, takeWhile_all_digit hdig, if_neg hne]

theorem matchCL_header {ds : List Char} (hne : ds ≠ [])
    (hdig : ∀ c ∈ ds, isDigitChar c = true) :
    matchContentLength (clHeaderChars ++ ds) = some (digitsToNat ds) := by
  have hsplit : clHeaderChars ++ ds
      = 'C' :: (['o', 'n', 't', 'e', 'n', 't', '-', 'L', 'e', 'n', 'g', 't',
          'h', ':', ' '] ++ ds) := rfl
  rw [hsplit, matchCL_cons, ← hsplit]
  have hcond : ((clHeaderChars ++ ds).take 15).map Char.toLower = clLit := by
    rw [take_append_le (by decide), show clHeaderChars.take 15
      = ['C', 'o', 'n', 't', 'e', 'n', 't', '-', 'L', 'e', 'n', 'g', 't',
          'h', ':'] from rfl]
    decide
  rw [if_pos hcond]
  have hdrop : (clHeaderChars ++ ds).drop 15 = ' ' :: ds := by
    rw [List.drop_append_eq_append_drop, show clHeaderChars.drop 15 = [' ']
      from rfl, show (15 : Nat) - clHeaderChars.length = 0 from rfl,
      List.drop_zero]
    rfl
  rw [hdrop, clDigitsAfter_space hne hdig]

theorem matchCL_nd (p : List Char) :
    matchContentLength (clHeaderChars ++ natDigits p.length) = some p.length := by
  rw [matchCL_header (natDigits_ne_nil _) (natDigits_all_digit _),
    digitsToNat_natDigits]

/-! ### Frame-shape computations -/

theorem hdr_no_cr (p : List Char) :
    ∀ c ∈ clHeaderChars ++ natDigits p.length, c ≠ '\r' := by
  have hh : ∀ x ∈ clHeaderChars, x ≠ '\r' := by decide
  intro c hc
  rcases List.mem_append.mp hc with hc | hc
  · exact hh c hc
  · exact natDigits_no_cr _ c hc

theorem frame_assoc (p X : List Char) :
    encodeFrame p ++ X
      = (clHeaderChars ++ natDigits p.length) ++ delimChars ++ (p ++ X) := by
  simp [encodeFrame, List.append_assoc]

theorem frame_length (p : List Char) :
    (encodeFrame p).length = hdrLen p + 4 + p.length := by
  simp [encodeFrame, hdrLen, delimChars]
  omega

theorem findDelim_frame (p X : List Char) :
    findDelim (encodeFrame p ++ X) = some (hdrLen p) := by
  rw [frame_assoc, findDelim_boundary (hdr_no_cr p)]
  rfl

theorem take_hdr_frame (p X : List Char) :
    (encodeFrame p ++ X).take (hdrLen p)
      = clHeaderChars ++ natDigits p.length := by
  rw [frame_assoc, List.append_assoc]
  simp only [hdrLen]
  exact take_append_len rfl

theorem matchCL_frame (p X : List Char) :
    matchContentLength ((encodeFrame p ++ X).take (hdrLen p)) = some p.length := by
  rw [take_hdr_frame, matchCL_nd]

theorem length_frame_append (p X : List Char) :
    (encodeFrame p ++ X).length = hdrLen p + 4 + p.length + X.length := by
  rw [List.length_append, frame_length]

theorem take_msg_frame (p X : List Char) :
    (encodeFrame p ++ X).take (hdrLen p + 4 + p.length) = encodeFrame p :=
  take_append_len (frame_length p).symm

theorem drop_msg_frame (p X : List Char) :
    (encodeFrame p ++ X).drop (hdrLen p + 4 + p.length) = X :=
  drop_append_len (frame_length p).symm

theorem content_frame (p X : List Char) :
    ((encodeFrame p ++ X).drop (hdrLen p + 4)).take p.length = p := by
  have h1 : (encodeFrame p ++ X).drop (hdrLen p + 4) = p ++ X := by
    rw [frame_assoc]
    refine drop_append_len ?_
    simp only [hdrLen, List.length_append, delimChars, List.length_cons,
      List.length_nil]
  rw [h1, take_append_len rfl]

/-! ### Decoder steps on a complete leading frame -/

theorem processStdout_nil (w : Bool) (fuel : Nat) :
    processStdout w fuel [] = ([], []) := by
  cases fuel <;> simp [processStdout, findDelim]

theorem processStdout_frame_step (w : Bool) (fuel : Nat) (p X : List Char) :
    processStdout w (fuel + 1) (encodeFrame p ++ X)
      = ((if w then encodeFrame p :: (processStdout w fuel X).1
          else (processStdout w fuel X).1), (processStdout w fuel X).2) := by
  rw [processStdout]
  simp only [findDelim_frame, matchCL_frame, length_frame_append,
    take_msg_frame, drop_msg_frame]
  rw [if_neg (by omega)]

theorem parseGo_nil {J : Type} (pj : List Char → Option J) (fuel : Nat) :
    parseMessagesGo pj fuel [] = ([], []) := by
  cases fuel <;> simp [parseMessagesGo, findDelim]

theorem parseGo_frame_step {J : Type} (pj : List Char → Option J)
    (fuel : Nat) (p X : List Char) :
    parseMessagesGo pj (fuel + 1) (encodeFrame p ++ X)
      = ((match pj p with
          | some m => m :: (parseMessagesGo pj fuel X).1
          | none => (parseMessagesGo pj fuel X).1),
         (parseMessagesGo pj fuel X).2) := by
  rw [parseMessagesGo]
  simp only [findDelim_frame, matchCL_frame, length_frame_append,
    content_frame, drop_msg_frame]
  rw [if_neg (by omega)]

/-! ### Draining whole frame streams -/

theorem processStdout_stream (w : Bool) (fuel : Nat) (ps : List (List Char)) :
    processStdout w fuel (encodeStream ps)
      = (if w then (ps.take fuel).map encodeFrame else [],
         encodeStream (ps.drop fuel)) := by
  induction fuel generalizing ps with
  | zero =>
    simp [processStdout]
  | succ fuel ih =>
    rcases ps with _ | ⟨p, ps⟩
    · rw [encodeStream, processStdout_nil]
      simp [encodeStream]
    · rw [encodeStream, processStdout_frame_step, ih]
      rcases w with _ | _ <;> simp

theorem encodeStream_length_ge (qs : List (List Char)) :
    qs.length ≤ (encodeStream qs).length := by
  induction qs with
  | nil => simp [encodeStream]
  | cons q qs ih =>
    rw [encodeStream, List.length_append, frame_length]
    simp only [List.length_cons]
    omega

theorem encodeStream_append (a b : List (List Char)) :
    encodeStream (a ++ b) = encodeStream a ++ encodeStream b := by
  induction a with
  | nil => simp [encodeStream]
  | cons q a ih => rw [List.cons_append, encodeStream, encodeStream, ih,
      List.append_assoc]

theorem parseGo_drain {J : Type} (pj : List Char → Option J)
    (qs : List (List Char)) (t : List Char)
    (hstuck : ∀ fuel, parseMessagesGo pj fuel t = ([], t)) :
    ∀ fuel, qs.length ≤ fuel →
      parseMessagesGo pj fuel (encodeStream qs ++ t) = (qs.filterMap pj, t) := by
  induction qs with
  | nil =>
    intro fuel _
    rw [encodeStream, List.nil_append, hstuck fuel, List.filterMap_nil]
  | cons q qs ih =>
    intro fuel hf
    rcases fuel with _ | fuel
    · simp at hf
    rw [encodeStream, List.append_assoc, parseGo_frame_step,
      ih fuel (by simpa using hf), List.filterMap_cons]
    rcases hpj : pj q with _ | m <;> simp [hpj]

/-! ### A strict initial segment of a frame makes the decoder wait -/

theorem parseGo_stuck_cut {J : Type} (pj : List Char → Option J)
    (q t : List Char) (hst : Starts t (encodeFrame q))
    (hlt : t.length < (encodeFrame q).length) (fuel : Nat) :
    parseMessagesGo pj fuel t = ([], t) := by
  have hfq : encodeFrame q
      = (clHeaderChars ++ natDigits q.length) ++ (delimChars ++ q) := by
    simp [encodeFrame, List.append_assoc]
  rw [hfq] at hst
  have hflen : (encodeFrame q).length
      = (clHeaderChars ++ natDigits q.length).length + 4 + q.length := by
    rw [frame_length, hdrLen]
  by_cases hA : t.length ≤ (clHeaderChars ++ natDigits q.length).length
  · have hta : Starts t (clHeaderChars ++ natDigits q.length) :=
      starts_of_le hst hA
    have hfd : findDelim t = none :=
      findDelim_none_of_no_cr (fun c hc => hdr_no_cr q c (starts_mem hta hc))
    cases fuel with
    | zero => rfl
    | succ fuel => rw [parseMessagesGo, hfd]
  by_cases hB : t.length < (clHeaderChars ++ natDigits q.length).length + 4
  · obtain ⟨t2, rfl, hst2⟩ := starts_split hst (by omega)
    have hl2 : t2.length < 4 := by
      rw [List.length_append] at hB
      omega
    have hd4 : t2.length ≤ delimChars.length := by
      simp only [delimChars, List.length_cons, List.length_nil]
      omega
    have hst2d : Starts t2 delimChars := starts_of_le hst2 hd4
    have hfd : findDelim ((clHeaderChars ++ natDigits q.length) ++ t2) = none :=
      findDelim_cut_none (hdr_no_cr q) hst2d hl2
    cases fuel with
    | zero => rfl
    | succ fuel => rw [parseMessagesGo, hfd]
  · obtain ⟨t2, rfl, hst2⟩ := starts_split hst (by omega)
    have hl2 : 4 ≤ t2.length := by
      rw [List.length_append] at hB
      omega
    have hd4 : delimChars.length ≤ t2.length := by
      simp only [delimChars, List.length_cons, List.length_nil]
      omega
    obtain ⟨t3, rfl, hst3⟩ := starts_split hst2 hd4
    have hfd : findDelim ((clHeaderChars ++ natDigits q.length)
        ++ (delimChars ++ t3))
        = some (clHeaderChars ++ natDigits q.length).length := by
      rw [← List.append_assoc]
      exact findDelim_boundary (hdr_no_cr q)
    have hml : matchContentLength (((clHeaderChars ++ natDigits q.length)
        ++ (delimChars ++ t3)).take (clHeaderChars ++ natDigits q.length).length)
        = some q.length := by
      rw [take_append_len rfl]
      exact matchCL_nd q
    have hcond : ((clHeaderChars ++ natDigits q.length)
        ++ (delimChars ++ t3)).length
        < (clHeaderChars ++ natDigits q.length).length + 4 + q.length := by
      rw [hflen] at hlt
      exact hlt
    cases fuel with
    | zero => rfl
    | succ fuel =>
      rw [parseMessagesGo]
      simp only [hfd, hml]
      rw [if_pos hcond]

theorem frameCut_stuck {J : Type} (pj : List Char → Option J)
    {t : List Char} {qs : List (List Char)} (h : FrameCut t qs) (fuel : Nat) :
    parseMessagesGo pj fuel t = ([], t) := by
  rcases h with ⟨rfl, rfl⟩ | ⟨q, qs2, rfl, hst, hlt⟩
  · exact parseGo_nil pj fuel
  · exact parseGo_stuck_cut pj q t hst hlt fuel

theorem parseMessages_drain {J : Type} (pj : List Char → Option J)
    (qs : List (List Char)) (t : List Char)
    (hstuck : ∀ fuel, parseMessagesGo pj fuel t = ([], t)) :
    parseMessages pj (encodeStream qs ++ t) = (qs.filterMap pj, t) := by
  refine parseGo_drain pj qs t hstuck _ ?_
  rw [List.length_append]
  have := encodeStream_length_ge qs
  omega

/-! ### Decomposing a stream's initial segment at frame boundaries -/

theorem stream_cut (qs : List (List Char)) (t : List Char)
    (h : Starts t (encodeStream qs)) :
    ∃ qs1 qs2 rem, qs = qs1 ++ qs2 ∧ t = encodeStream qs1 ++ rem ∧
      FrameCut rem qs2 := by
  induction qs generalizing t with
  | nil =>
    obtain ⟨r, hr⟩ := h
    rw [encodeStream] at hr
    obtain ⟨rfl, -⟩ := List.append_eq_nil.mp hr
    exact ⟨[], [], [], rfl, by simp [encodeStream], Or.inl ⟨rfl, rfl⟩⟩
  | cons q qs ih =>
    rw [encodeStream] at h
    by_cases hlen : t.length < (encodeFrame q).length
    · refine ⟨[], q :: qs, t, rfl, by rw [encodeStream, List.nil_append],
        Or.inr ⟨q, qs, rfl, starts_of_le h (by omega), hlen⟩⟩
    · obtain ⟨t2, rfl, hst2⟩ := starts_split h (by omega)
      obtain ⟨qs1, qs2, rem, rfl, ht2, hcut⟩ := ih t2 hst2
      exact ⟨q :: qs1, qs2, rem, rfl,
        by rw [encodeStream, ht2, List.append_assoc], hcut⟩

/-! ### Feeding a chunked stream through the reader -/

theorem feedChunks_drain {J : Type} (pj : List Char → Option J)
    (cs : List (List Char)) :
    ∀ (qs : List (List Char)) (A : List J) (t : List Char),
      FrameCut t qs → t ++ chunksConcat cs = encodeStream qs →
      feedChunks pj (A, t) cs = (A ++ qs.filterMap pj, []) := by
  induction cs with
  | nil =>
    intro qs A t hcut hall
    rw [chunksConcat, List.append_nil] at hall
    rcases hcut with ⟨rfl, rfl⟩ | ⟨q, qs2, rfl, hst, hlt⟩
    · simp [feedChunks]
    · exfalso
      have h1 : t.length = (encodeFrame q).length
          + (encodeStream qs2).length := by
        rw [hall, encodeStream, List.length_append]
      omega
  | cons c cs ih =>
    intro qs A t hcut hall
    have hstart : Starts (t ++ c) (encodeStream qs) :=
      ⟨chunksConcat cs, by rw [List.append_assoc]; exact hall⟩
    obtain ⟨qs1, qs2, rem, rfl, htc, hcut2⟩ := stream_cut qs (t ++ c) hstart
    have hparse : parseMessages pj (t ++ c) = (qs1.filterMap pj, rem) := by
      rw [htc]
      exact parseMessages_drain pj qs1 rem (frameCut_stuck pj hcut2)
    have hrem : rem ++ chunksConcat cs = encodeStream qs2 := by
      rw [chunksConcat] at hall
      rw [← List.append_assoc, htc, encodeStream_append, List.append_assoc]
        at hall
      exact List.append_cancel_left hall
    rw [feedChunks]
    simp only [hparse]
    rw [ih qs2 (A ++ qs1.filterMap pj) rem hcut2 hrem, List.filterMap_append,
      List.append_assoc]

theorem frameCut_nil (qs : List (List Char)) : FrameCut [] qs := by
  rcases qs with _ | ⟨q, qs⟩
  · exact Or.inl ⟨rfl, rfl⟩
  · refine Or.inr ⟨q, qs, rfl, starts_nil _, ?_⟩
    rw [frame_length]
    simp only [List.length_nil]
    omega

theorem filterMap_eq_map_of {J : Type} (pj : List Char → Option J)
    (f : List Char → J) (ps : List (List Char))
    (h : ∀ p ∈ ps, pj p = some (f p)) : ps.filterMap pj = ps.map f := by
  induction ps with
  | nil => rfl
  | cons p ps ih =>
    rw [List.filterMap_cons, h p (by simp), List.map_cons,
      ih (fun x hx => h x (by simp [hx]))]

/-! ### Incomplete-frame wait and malformed-header skip -/

theorem processStdout_wait {w : Bool} {fuel : Nat} {buf : List Char}
    {h n : Nat} (hfd : findDelim buf = some h)
    (hm : matchContentLength (buf.take h) = some n)
    (hshort : buf.length < h + 4 + n) :
    processStdout w fuel buf = ([], buf) := by
  cases fuel with
  | zero => rfl
  | succ fuel =>
    rw [processStdout]
    simp only [hfd, hm]
    rw [if_pos hshort]

theorem parseGo_wait {J : Type} {pj : List Char → Option J} {fuel : Nat}
    {buf : List Char} {h n : Nat} (hfd : findDelim buf = some h)
    (hm : matchContentLength (buf.take h) = some n)
    (hshort : buf.length < h + 4 + n) :
    parseMessagesGo pj fuel buf = ([], buf) := by
  cases fuel with
  | zero => rfl
  | succ fuel =>
    rw [parseMessagesGo]
    simp only [hfd, hm]
    rw [if_pos hshort]

theorem processStdout_skip {w : Bool} {fuel : Nat} {g rest : List Char}
    (hnc : ∀ c ∈ g, c ≠ '\r') (hnm : matchContentLength g = none) :
    processStdout w (fuel + 1) (g ++ delimChars ++ rest)
      = processStdout w fuel rest := by
  rw [processStdout]
  have hfd := findDelim_boundary (r := rest) hnc
  have htake : (g ++ delimChars ++ rest).take g.length = g := by
    rw [take_append_le (by simp only [List.length_append]; omega),
      take_append_le le_rfl, List.take_length]
  have hdrop : (g ++ delimChars ++ rest).drop (g.length + 4) = rest :=
    drop_append_len (by simp [delimChars])
  simp only [hfd, htake, hnm, hdrop]

/-! ### The stdout handler only ever consumes a prefix of its input -/

theorem processStdout_snd_sfx (w : Bool) (fuel : Nat) :
    ∀ buf, (processStdout w fuel buf).2 <:+ buf := by
  induction fuel with
  | zero => intro buf; exact List.suffix_rfl
  | succ fuel ih =>
    intro buf
    rw [processStdout]
    cases hfd : findDelim buf with
    | none => exact List.suffix_rfl
    | some headerEnd =>
      simp only []
      cases hm : matchContentLength (buf.take headerEnd) with
      | none => exact (ih _).trans (List.drop_suffix _ _)
      | some contentLength =>
        simp only []
        by_cases hlen : buf.length < headerEnd + 4 + contentLength
        · rw [if_pos hlen]
        · rw [if_neg hlen]
          exact (ih _).trans (List.drop_suffix _ _)

/-! ### A closed socket drops extracted frames but consumes identically -/

theorem processStdout_fst_closed (fuel : Nat) :
    ∀ buf, (processStdout false fuel buf).1 = [] := by
  induction fuel with
  | zero => intro buf; rfl
  | succ fuel ih =>
    intro buf
    rw [processStdout]
    cases hfd : findDelim buf with
    | none => rfl
    | some headerEnd =>
      simp only []
      cases hm : matchContentLength (buf.take headerEnd) with
      | none => exact ih _
      | some contentLength =>
        simp only []
        by_cases hlen : buf.length < headerEnd + 4 + contentLength
        · rw [if_pos hlen]
        · rw [if_neg hlen]
          simp only [Bool.false_eq_true, if_false]
          exact ih _

theorem processStdout_snd_w (fuel : Nat) :
    ∀ buf (w w' : Bool),
      (processStdout w fuel buf).2 = (processStdout w' fuel buf).2 := by
  induction fuel with
  | zero => intro buf w w'; rfl
  | succ fuel ih =>
    intro buf w w'
    rw [processStdout, processStdout]
    cases hfd : findDelim buf with
    | none => rfl
    | some headerEnd =>
      simp only []
      cases hm : matchContentLength (buf.take headerEnd) with
      | none => exact ih _ w w'
      | some contentLength =>
        simp only []
        by_cases hlen : buf.length < headerEnd + 4 + contentLength
        · rw [if_pos hlen, if_pos hlen]
        · rw [if_neg hlen, if_neg hlen]
          exact ih _ w w'

theorem parseGo_break {J : Type} {pj : List Char → Option J} {fuel : Nat}
    {buf : List Char} {h : Nat} (hfd : findDelim buf = some h)
    (hnm : matchContentLength (buf.take h) = none) :
    parseMessagesGo pj fuel buf = ([], buf) := by
  cases fuel with
  | zero => rfl
  | succ fuel =>
    rw [parseMessagesGo]
    simp only [hfd, hnm]

/-! ## Claim theorems -/

/-- C1 — Framing round-trip: for every payload sequence `ps` framed by
`encodeFrame` and concatenated into one stream, and every way `cs` of cutting
that stream into chunks (including cuts mid-header, mid-delimiter and
mid-payload), feeding the chunks in order through the reader's accumulate /
`parseMessages` loop emits exactly the decoded payloads, one per original
frame, in order, with nothing left in the buffer: no byte is lost across any
chunk boundary and no frame is duplicated. -/
theorem c1_framing_round_trip {J : Type} (parseJson : List Char → Option J)
    (f : List Char → J) (ps cs : List (List Char))
    (hchunks : chunksConcat cs = encodeStream ps)
    (hvalid : ∀ p ∈ ps, parseJson p = some (f p)) :
    feedChunks parseJson ([], []) cs = (ps.map f, []) := by
  have h := feedChunks_drain parseJson cs ps [] [] (frameCut_nil ps)
    (by rw [List.nil_append, hchunks])
  rw [h, filterMap_eq_map_of parseJson f ps hvalid, List.nil_append]

/-- C1 witness: the spec's own fixture — `Content-Length: 7` CRLF CRLF
`[1,2,3]` cut into three chunks, splitting both the delimiter and the
payload — yields exactly the one payload. -/
theorem c1_framing_round_trip_witness :
    feedChunks (fun s => some s) ([], [])
        ["Content-Length: 7\r".toList, "\n\r\n[1,2".toList, ",3]".toList]
      = ([ "[1,2,3]".toList ], []) :=
  c1_framing_round_trip (fun s => some s) (fun s => s) ["[1,2,3]".toList]
    ["Content-Length: 7\r".toList, "\n\r\n[1,2".toList, ",3]".toList]
    (by decide) (by decide)

/-- C2 — Partial-frame retention: when the buffer holds a complete header
(delimiter found at `h`, parseable `Content-Length` `n`) but fewer than `n`
payload units after the delimiter, one decode invocation emits nothing and
consumes nothing (the buffer is returned untouched); once the remaining units
arrive, exactly one frame is emitted, containing the full `n`-unit payload
after its header. -/
theorem c2_partial_frame_retention (wsOpen : Bool) (buf d2 : List Char)
    (h n : Nat) (hfd : findDelim buf = some h)
    (hm : matchContentLength (buf.take h) = some n)
    (hshort : buf.length < h + 4 + n)
    (hcomplete : (buf ++ d2).length = h + 4 + n) :
    processStdout wsOpen 100 buf = ([], buf)
      ∧ onChildStdoutData true buf d2 = ([buf ++ d2], [])
      ∧ ((buf ++ d2).drop (h + 4)).length = n := by
  refine ⟨processStdout_wait hfd hm hshort, ?_, ?_⟩
  · rw [onChildStdoutData]
    have hb : h ≤ buf.length := by
      have := findDelim_bound hfd
      omega
    have hfd2 : findDelim (buf ++ d2) = some h := findDelim_append_of_some hfd
    have hm2 : matchContentLength ((buf ++ d2).take h) = some n := by
      rw [take_append_le hb]
      exact hm
    rw [show (100 : Nat) = 99 + 1 from rfl, processStdout]
    simp only [hfd2, hm2]
    rw [if_neg (by omega), ← hcomplete, List.take_length, List.drop_length,
      processStdout_nil]
    simp
  · rw [List.length_drop, hcomplete]
    omega

/-- C2 witness: header `Content-Length: 7` with only four payload units
buffered waits; the three remaining units complete exactly one frame. -/
theorem c2_partial_frame_retention_witness :
    processStdout true 100 "Content-Length: 7\r\n\r\n[1,2".toList
        = ([], "Content-Length: 7\r\n\r\n[1,2".toList)
      ∧ onChildStdoutData true "Content-Length: 7\r\n\r\n[1,2".toList ",3]".toList
          = (["Content-Length: 7\r\n\r\n[1,2".toList ++ ",3]".toList], [])
      ∧ (("Content-Length: 7\r\n\r\n[1,2".toList ++ ",3]".toList).drop
            (17 + 4)).length = 7 :=
  c2_partial_frame_retention true _ _ 17 7 (by decide) (by decide) (by decide)
    (by decide)

/-- C3 counterexample: `parseMessages` of websocket-transport.ts, one of the
two decoders the claim covers, fed `"x" CRLF CRLF` followed by a valid,
complete frame, emits no frame at all and discards nothing — the whole
buffer, garbage included, is returned as the remainder, because the source
`break`s when the header before the first delimiter has no parseable
`Content-Length` instead of dropping it and rescanning. -/
theorem c3_counterexample :
    (parseMessages (fun s => some s)
        ("x\r\n\r\n".toList ++ encodeFrame "[1]".toList)).1 = []
      ∧ (parseMessages (fun s => some s)
          ("x\r\n\r\n".toList ++ encodeFrame "[1]".toList)).2
        = "x\r\n\r\n".toList ++ encodeFrame "[1]".toList := by
  exact ⟨by decide, by decide⟩

/-- C3 amended — Malformed-header resilience holds for the App.tsx stdout
decoder but not for `parseMessages`: for any header block `g` with no carriage
return and no parseable `Content-Length`, followed by the delimiter and a
valid complete frame, the App.tsx decoder drops exactly the bytes up to and
including the malformed header's delimiter, resumes scanning, and emits
exactly the one valid frame with nothing left over (and no exception —
every case returns normally); the websocket-transport `parseMessages`,
by contrast, stops at the malformed header, emits nothing, and leaves the
entire buffer (garbage included) as the remainder. -/
theorem c3_malformed_header_amended {J : Type} (pj : List Char → Option J)
    (g p tail : List Char) (hnc : ∀ c ∈ g, c ≠ '\r')
    (hnm : matchContentLength g = none) :
    onChildStdoutData true [] (g ++ delimChars ++ encodeFrame p)
        = ([encodeFrame p], [])
      ∧ parseMessages pj (g ++ delimChars ++ tail)
          = ([], g ++ delimChars ++ tail) := by
  constructor
  · rw [onChildStdoutData, List.nil_append, show (100 : Nat) = 99 + 1 from rfl,
      processStdout_skip hnc hnm,
      show encodeFrame p = encodeStream [p] from by simp [encodeStream],
      processStdout_stream]
    simp [encodeStream]
  · have htake : (g ++ delimChars ++ tail).take g.length = g := by
      rw [take_append_le (by simp only [List.length_append]; omega),
        take_append_le le_rfl, List.take_length]
    rw [parseMessages]
    exact parseGo_break (findDelim_boundary hnc) (by rw [htake]; exact hnm)

/-- C3 amended witness: `"garbage"` before the delimiter, then a valid
frame. -/
theorem c3_malformed_header_amended_witness :
    onChildStdoutData true []
        ("garbage".toList ++ delimChars ++ encodeFrame "[1]".toList)
        = ([encodeFrame "[1]".toList], [])
      ∧ parseMessages (fun s => some s)
          ("garbage".toList ++ delimChars ++ "x".toList)
          = ([], "garbage".toList ++ delimChars ++ "x".toList) :=
  c3_malformed_header_amended (fun s => some s) "garbage".toList "[1]".toList
    "x".toList (by decide) (by decide)

/-- C4 counterexample: the App.tsx stdout decoder, one of the two decoders the
claim covers, fed a well-formed frame whose 7-unit payload `notjson` is not
valid JSON followed by a valid frame, emits TWO frames — including one for the
invalid-JSON span — because the source forwards the raw span unconditionally
(its `JSON.parse` is only diagnostic logging), contradicting the claim that no
frame is emitted for that span. -/
theorem c4_counterexample :
    (onChildStdoutData true []
        (encodeFrame "notjson".toList ++ encodeFrame "[1]".toList)).1
      = [encodeFrame "notjson".toList, encodeFrame "[1]".toList] := by
  decide

/-- C4 amended — Malformed-JSON resilience holds for `parseMessages` but not
for the App.tsx stdout decoder: when `JSON.parse` rejects the first frame's
payload (`pj p1 = none`) and accepts the second (`pj p2 = some v`),
`parseMessages` emits nothing for the first span, does not tear down,
consumes exactly the header-plus-delimiter-plus-payload span, and decodes the
frame positioned immediately after it, emitting exactly `[v]`; the App.tsx
decoder instead forwards both raw spans regardless of payload validity
(consuming them exactly and still decoding the next frame correctly). -/
theorem c4_malformed_json_amended {J : Type} (pj : List Char → Option J)
    (p1 p2 : List Char) (v : J) (h1 : pj p1 = none) (h2 : pj p2 = some v) :
    parseMessages pj (encodeFrame p1 ++ encodeFrame p2) = ([v], [])
      ∧ onChildStdoutData true [] (encodeFrame p1 ++ encodeFrame p2)
          = ([encodeFrame p1, encodeFrame p2], []) := by
  constructor
  · rw [show encodeFrame p1 ++ encodeFrame p2 = encodeStream [p1, p2] ++ []
        from by simp [encodeStream],
      parseMessages_drain pj [p1, p2] [] (fun fuel => parseGo_nil pj fuel)]
    simp [List.filterMap_cons, h1, h2]
  · rw [onChildStdoutData, List.nil_append,
      show encodeFrame p1 ++ encodeFrame p2 = encodeStream [p1, p2]
        from by simp [encodeStream],
      processStdout_stream]
    simp [encodeStream]

/-- C4 amended witness: payload `notjson` rejected by the JSON parser, payload
`[1]` accepted. -/
theorem c4_malformed_json_amended_witness :
    parseMessages (fun s => if s = "[1]".toList then some s else none)
        (encodeFrame "notjson".toList ++ encodeFrame "[1]".toList)
        = (["[1]".toList], [])
      ∧ onChildStdoutData true []
          (encodeFrame "notjson".toList ++ encodeFrame "[1]".toList)
          = ([encodeFrame "notjson".toList, encodeFrame "[1]".toList], []) :=
  c4_malformed_json_amended (fun s => if s = "[1]".toList then some s else none)
    "notjson".toList "[1]".toList "[1]".toList (by decide) (by decide)

/-- C5 — Iteration-cap fairness: a buffer holding more complete frames than
the cap of 100 yields, in one decode invocation, exactly the first 100 frames
(so at most the cap), with every remaining frame left intact in the buffer;
and the next chunk-arrival event — even one delivering no new bytes —
processes the leftover frames (all of them, when at most another 100
remain). -/
theorem c5_iteration_cap (ps : List (List Char)) (h1 : 100 < ps.length)
    (h2 : ps.length ≤ 200) :
    onChildStdoutData true [] (encodeStream ps)
        = ((ps.take 100).map encodeFrame, encodeStream (ps.drop 100))
      ∧ (ps.take 100).length = 100
      ∧ onChildStdoutData true (encodeStream (ps.drop 100)) []
          = ((ps.drop 100).map encodeFrame, []) := by
  refine ⟨?_, ?_, ?_⟩
  · rw [onChildStdoutData, List.nil_append, processStdout_stream]
    simp
  · rw [List.length_take]
    omega
  · have hd : (ps.drop 100).drop 100 = [] := by
      rw [List.drop_drop]
      exact List.drop_eq_nil_of_le (by omega)
    rw [onChildStdoutData, List.append_nil, processStdout_stream,
      List.take_of_length_le (by rw [List.length_drop]; omega), hd]
    simp [encodeStream]

/-- C5 witness: 101 one-unit-payload frames — the first invocation emits 100
and retains one; the next (empty) event emits the last. -/
theorem c5_iteration_cap_witness :
    onChildStdoutData true [] (encodeStream (List.replicate 101 "x".toList))
        = (((List.replicate 101 "x".toList).take 100).map encodeFrame,
           encodeStream ((List.replicate 101 "x".toList).drop 100))
      ∧ ((List.replicate 101 "x".toList).take 100).length = 100
      ∧ onChildStdoutData true
            (encodeStream ((List.replicate 101 "x".toList).drop 100)) []
          = (((List.replicate 101 "x".toList).drop 100).map encodeFrame, []) :=
  c5_iteration_cap (List.replicate 101 "x".toList) (by simp) (by simp)

/-- C6 — Close-code discrimination: a child `exit` event, with any exit code,
closes the socket with the normal-closure code 1000; a child `error` event
(including spawn failure, which Node surfaces as `error`) closes it with the
internal-error code 1011; the two codes are distinct. -/
theorem c6_close_codes (exitCode : Option Int) :
    (onChildExit exitCode).code = 1000 ∧ onChildError.code = 1011
      ∧ (onChildExit exitCode).code ≠ onChildError.code :=
  ⟨rfl, rfl, by show (1000 : Nat) ≠ 1011; decide⟩

/-- C7 — Idempotent kill: after the first socket close (or error) event the
child has received exactly one termination signal, and however many further
close or error events fire, the `killed` flag keeps every later termination
request a no-op: the signal count stays exactly 1. -/
theorem c7_idempotent_kill (e : WsEndEvent) (evs : List WsEndEvent) :
    ((e :: evs).foldl (fun c ev => onWsEnd ev c) ⟨false, 0⟩).killCount = 1
      ∧ (onWsEnd e ⟨false, 0⟩).killCount = 1 := by
  have hfirst : onWsEnd e ⟨false, 0⟩ = ⟨true, 1⟩ := by
    cases e <;> rfl
  have hstable : ∀ (evs2 : List WsEndEvent) (k : Nat),
      evs2.foldl (fun c ev => onWsEnd ev c) ⟨true, k⟩ = ⟨true, k⟩ := by
    intro evs2 k
    induction evs2 with
    | nil => rfl
    | cons ev evs2 ih =>
      rw [List.foldl_cons]
      cases ev <;> exact ih
  constructor
  · rw [List.foldl_cons, hfirst, hstable]
  · rw [hfirst]

/-- C8 — Upgrade routing: whenever the URL constructor succeeds on the
request, the handler completes the WebSocket handshake exactly when the parsed
pathname equals the reserved route `/api/copilot`; for any other pathname the
upgrade event is left entirely untouched (no handshake, no socket action). -/
theorem c8_upgrade_routing (newURL : List Char → List Char → Option ParsedUrl)
    (url host : List Char) (u : ParsedUrl)
    (hparse : newURL url ("https://".toList ++ host) = some u) :
    (upgradeHandler newURL url host = .handshake ↔ u.pathname = copilotRoute)
      ∧ (u.pathname ≠ copilotRoute →
          upgradeHandler newURL url host = .ignored) := by
  have hu : upgradeHandler newURL url host
      = if u.pathname = copilotRoute then .handshake else .ignored := by
    rw [upgradeHandler, hparse]
  constructor
  · constructor
    · intro hh
      by_contra hne
      rw [hu, if_neg hne] at hh
      exact absurd hh (by decide)
    · intro he
      rw [hu, if_pos he]
  · intro hne
    rw [hu, if_neg hne]

/-- C8 witness: the reserved route completes the handshake under the modelled
URL constructor. -/
theorem c8_upgrade_routing_witness :
    (upgradeHandler newURLModel "/api/copilot".toList "localhost".toList
          = .handshake
        ↔ (⟨"/api/copilot".toList⟩ : ParsedUrl).pathname = copilotRoute)
      ∧ ((⟨"/api/copilot".toList⟩ : ParsedUrl).pathname ≠ copilotRoute →
          upgradeHandler newURLModel "/api/copilot".toList "localhost".toList
            = .ignored) :=
  c8_upgrade_routing newURLModel "/api/copilot".toList "localhost".toList
    ⟨"/api/copilot".toList⟩ (by rfl)

/-- C9 counterexample: the upgrade handler calls the WHATWG URL constructor
with no `try`/`catch`; on a Host header containing a space — a forbidden host
code point, on which the constructor throws a `TypeError` — the exception
escapes the event handler, contradicting the claim that no handler ever
throws across the event boundary. -/
theorem c9_counterexample :
    upgradeHandler newURLModel "/api/copilot".toList "exa mple.com".toList
      = .exceptionEscapes := by
  rfl

/-- C9 amended — No-throw propagation holds except for the unguarded URL
parse in the upgrade handler: whenever the URL constructor succeeds, the
upgrade handler cannot leak an exception (it either completes the handshake
or leaves the event untouched); and the stdout data handler handles every
possible buffer and chunk — malformed headers and bogus lengths included —
returning normally and only ever consuming a prefix of its input, never
corrupting the retained remainder.  Only a request whose url/host the URL
constructor rejects makes the upgrade handler throw. -/
theorem c9_no_throw_amended (newURL : List Char → List Char → Option ParsedUrl)
    (url host : List Char) (u : ParsedUrl) (wsOpen : Bool)
    (buffer data : List Char)
    (hparse : newURL url ("https://".toList ++ host) = some u) :
    upgradeHandler newURL url host ≠ .exceptionEscapes
      ∧ (onChildStdoutData wsOpen buffer data).2 <:+ buffer ++ data := by
  constructor
  · have hu : upgradeHandler newURL url host
        = if u.pathname = copilotRoute then .handshake else .ignored := by
      rw [upgradeHandler, hparse]
    rw [hu]
    by_cases hp : u.pathname = copilotRoute
    · rw [if_pos hp]
      decide
    · rw [if_neg hp]
      decide
  · exact processStdout_snd_sfx wsOpen 100 (buffer ++ data)

/-- C9 amended witness: a well-formed request cannot make the handler throw,
and the data handler consumes only a prefix on a malformed buffer. -/
theorem c9_no_throw_amended_witness :
    upgradeHandler newURLModel "/api/copilot".toList "localhost".toList
        ≠ .exceptionEscapes
      ∧ (onChildStdoutData true "bogus\r\n\r\n".toList "zz".toList).2
          <:+ "bogus\r\n\r\n".toList ++ "zz".toList :=
  c9_no_throw_amended newURLModel "/api/copilot".toList "localhost".toList
    ⟨"/api/copilot".toList⟩ true "bogus\r\n\r\n".toList "zz".toList (by rfl)

/-- C10 — Silent drop on a non-open socket: when the browser-facing socket is
not OPEN during a data event, the App.tsx decoder sends nothing at all, yet
consumes exactly the same span it would have consumed with the socket open —
the extracted frames' bytes are gone from the only retained state, so they can
never be queued, retried or re-sent; and the simple copilotProxy.js relay
likewise drops the raw chunk entirely when the socket is not open. -/
theorem c10_silent_drop (buffer data : List Char) :
    (onChildStdoutData false buffer data).1 = []
      ∧ (onChildStdoutData false buffer data).2
          = (onChildStdoutData true buffer data).2
      ∧ rawStdoutForward false data = [] :=
  ⟨processStdout_fst_closed 100 (buffer ++ data),
    processStdout_snd_w 100 (buffer ++ data) false true, rfl⟩

end CopilotOffice
